import Mathlib

/-!
# Verification of the data-cleaning and dataset-assembly pipeline

Shallow embedding of the repository's cleaning, dataset-building and
validation modules:

* `src/data_collection/data_cleaner.py`   (`DataCleaner`)
* `src/data_processing/dataset_builder.py` (`DatasetBuilder`)
* `src/data_processing/data_validator.py`  (`DataValidator`)

Python strings are embedded as `List Char` (`Chars`); Python dictionaries
holding job records are embedded as a structure of `Option Chars` fields
(`none` = key absent).  Timestamps are embedded as natural numbers.
-/

/-- Embedded Python string: a list of characters. -/
abbrev Chars := List Char

/-- Python's unicode-whitespace predicate, as used by `str.split()` /
`str.strip()` (CPython `Py_UNICODE_ISSPACE`): ASCII whitespace, the
C1 controls 0x1c–0x1f and 0x85, NBSP, and the unicode space separators. -/
def pySpace (c : Char) : Bool :=
  c = ' ' || c = '\t' || c = '\n' || c = '\r' ||
  c.toNat = 0x0b || c.toNat = 0x0c ||
  (0x1c ≤ c.toNat && c.toNat ≤ 0x1f) ||
  c.toNat = 0x85 || c.toNat = 0xa0 || c.toNat = 0x1680 ||
  (0x2000 ≤ c.toNat && c.toNat ≤ 0x200a) ||
  c.toNat = 0x2028 || c.toNat = 0x2029 || c.toNat = 0x202f ||
  c.toNat = 0x205f || c.toNat = 0x3000

/-- Python `str.strip()` with no argument: drop unicode whitespace from
both ends. -/
def pyStrip (s : Chars) : Chars :=
  ((s.dropWhile pySpace).reverse.dropWhile pySpace).reverse

/-- Helper for `pySplit`: accumulates the current word (reversed) while
scanning.  Mirrors Python `str.split()` with no argument: split on runs
of whitespace, discarding empty pieces. -/
def pySplitAux : Chars → Chars → List Chars
  | cur, [] => if cur = [] then [] else [cur.reverse]
  | cur, c :: cs =>
    if pySpace c then
      if cur = [] then pySplitAux [] cs else cur.reverse :: pySplitAux [] cs
    else pySplitAux (c :: cur) cs

/-- Python `str.split()` with no argument. -/
def pySplit (s : Chars) : List Chars := pySplitAux [] s

/-- Python `str.replace(a, b)` for single-character `a`, `b`. -/
def replaceChar (a b : Char) (s : Chars) : Chars :=
  s.map (fun c => if c = a then b else c)

/-- Does `s` start with `pat`?  (Python `str.startswith` / pattern match
at position 0.) -/
def leadsWith (pat s : Chars) : Bool := decide (s.take pat.length = pat)

/-- Does `s` end with `pat`?  (Python `str.endswith`.) -/
def trailsWith (pat s : Chars) : Bool :=
  decide (pat.length ≤ s.length) && decide (s.drop (s.length - pat.length) = pat)

/-- Python's substring containment `pat in s`. -/
def containsSub (pat : Chars) : Chars → Bool
  | [] => leadsWith pat []
  | c :: cs => leadsWith pat (c :: cs) || containsSub pat cs

/-- Number of positions (including the final empty suffix) at which `pat`
occurs in `s`. -/
def countOcc (pat : Chars) : Chars → Nat
  | [] => if leadsWith pat [] then 1 else 0
  | c :: cs => (if leadsWith pat (c :: cs) then 1 else 0) + countOcc pat cs

/-- Split `s` at the first occurrence of `pat`, returning the pieces
before and after it (Python `str.split(pat, 1)` when `pat` occurs). -/
def splitFirst (pat : Chars) : Chars → Option (Chars × Chars)
  | [] => if leadsWith pat [] then some ([], []) else none
  | c :: cs =>
    if leadsWith pat (c :: cs) then some ([], (c :: cs).drop pat.length)
    else match splitFirst pat cs with
      | some (a, b) => some (c :: a, b)
      | none => none

/-- `DataCleaner._clean_text`: join the whitespace-split words with single
spaces, replace NBSP / ideographic space / tab by plain space, and strip. -/
def clean_text (t : Chars) : Chars :=
  if t = [] then []
  else
    pyStrip (replaceChar '\t' ' '
      (replaceChar (Char.ofNat 0x3000) ' '
        (replaceChar (Char.ofNat 0xa0) ' '
          (List.intercalate [' '] (pySplit t)))))

section CharsLemmas

theorem pySplitAux_words_nonempty (cur s : Chars) (hc : ∀ c ∈ cur, pySpace c = false) :
    ∀ w ∈ pySplitAux cur s, w ≠ [] ∧ ∀ c ∈ w, pySpace c = false := by
  induction s generalizing cur with
  | nil =>
    intro w hw
    by_cases h : cur = []
    · simp [pySplitAux, h] at hw
    · simp [pySplitAux, h] at hw
      subst hw
      refine ⟨by simpa using h, ?_⟩
      intro c hcmem
      exact hc c (by simpa using hcmem)
  | cons c cs ih =>
    intro w hw
    by_cases hsp : pySpace c
    · by_cases h : cur = []
      · simp [pySplitAux, hsp, h] at hw
        exact ih [] (by simp) w hw
      · simp [pySplitAux, hsp, h] at hw
        rcases hw with hw | hw
        · subst hw
          refine ⟨by simpa using h, ?_⟩
          intro x hx
          exact hc x (by simpa using hx)
        · exact ih [] (by simp) w hw
    · simp only [pySplitAux, hsp, Bool.false_eq_true, if_false] at hw
      refine ih (c :: cur) ?_ w hw
      intro x hx
      rcases List.mem_cons.mp hx with rfl | hx
      · simpa using hsp
      · exact hc x hx

theorem pySplit_words_nonempty (s : Chars) :
    ∀ w ∈ pySplit s, w ≠ [] ∧ ∀ c ∈ w, pySpace c = false :=
  pySplitAux_words_nonempty [] s (by simp)

theorem intercalate_nil_words : List.intercalate [' '] ([] : List Chars) = [] := by
  simp [List.intercalate]

theorem intercalate_single (w : Chars) : List.intercalate [' '] [w] = w := by
  simp [List.intercalate]

theorem intercalate_cons2 (w b : Chars) (t : List Chars) :
    List.intercalate [' '] (w :: b :: t) = w ++ ' ' :: List.intercalate [' '] (b :: t) := by
  simp [List.intercalate, List.intersperse]

theorem pySplitAux_word (w : Chars) (hw : ∀ c ∈ w, pySpace c = false) :
    ∀ cur s, pySplitAux cur (w ++ s) = pySplitAux (w.reverse ++ cur) s := by
  induction w with
  | nil => intro cur s; simp
  | cons c cs ih =>
    intro cur s
    have hc : pySpace c = false := hw c (List.mem_cons_self c cs)
    have hcs : ∀ x ∈ cs, pySpace x = false := fun x hx => hw x (List.mem_cons_of_mem c hx)
    simp only [List.cons_append, pySplitAux, hc, Bool.false_eq_true, if_false, List.append_eq]
    rw [ih hcs (c :: cur) s]
    simp [List.append_assoc]

theorem pySplitAux_space (cur s : Chars) :
    pySplitAux cur (' ' :: s) =
      if cur = [] then pySplitAux [] s else cur.reverse :: pySplitAux [] s := by
  simp [pySplitAux, pySpace]

theorem pySplit_word_space (w : Chars) (hwne : w ≠ [])
    (hwsp : ∀ c ∈ w, pySpace c = false) (r : Chars) :
    pySplit (w ++ ' ' :: r) = w :: pySplit r := by
  unfold pySplit
  have h1 := pySplitAux_word w hwsp [] (' ' :: r)
  simp only [List.append_nil] at h1
  rw [h1, pySplitAux_space]
  have hrne : w.reverse ≠ [] := by simpa using hwne
  rw [if_neg hrne]
  simp

theorem pySplit_intercalate (ws : List Chars)
    (h : ∀ w ∈ ws, w ≠ [] ∧ ∀ c ∈ w, pySpace c = false) :
    pySplit (List.intercalate [' '] ws) = ws := by
  induction ws with
  | nil => simp [intercalate_nil_words, pySplit, pySplitAux]
  | cons w tail ih =>
    obtain ⟨hwne, hwsp⟩ := h w (List.mem_cons_self w tail)
    have htail : ∀ w ∈ tail, w ≠ [] ∧ ∀ c ∈ w, pySpace c = false :=
      fun x hx => h x (List.mem_cons_of_mem w hx)
    cases tail with
    | nil =>
      rw [intercalate_single]
      unfold pySplit
      have h1 := pySplitAux_word w hwsp [] []
      simp only [List.append_nil] at h1
      rw [h1]
      simp [pySplitAux, hwne]
    | cons b t =>
      rw [intercalate_cons2, pySplit_word_space w hwne hwsp, ih htail]

theorem intercalate_words_ne_nil (w : Chars) (t : List Chars) (hw : w ≠ []) :
    List.intercalate [' '] (w :: t) ≠ [] := by
  cases t with
  | nil => simpa [intercalate_single] using hw
  | cons b t' =>
    rw [intercalate_cons2]
    simp

theorem mem_intercalate_words (ws : List Chars) (c : Char)
    (hc : c ∈ List.intercalate [' '] ws) : c = ' ' ∨ ∃ w ∈ ws, c ∈ w := by
  induction ws with
  | nil => simp [intercalate_nil_words] at hc
  | cons w tail ih =>
    cases tail with
    | nil =>
      rw [intercalate_single] at hc
      exact Or.inr ⟨w, List.mem_cons_self w [], hc⟩
    | cons b t =>
      rw [intercalate_cons2] at hc
      rcases List.mem_append.mp hc with hw | hrest
      · exact Or.inr ⟨w, List.mem_cons_self w _, hw⟩
      · rcases List.mem_cons.mp hrest with rfl | hrest
        · exact Or.inl rfl
        · rcases ih hrest with h | ⟨w', hw', hc'⟩
          · exact Or.inl h
          · exact Or.inr ⟨w', List.mem_cons_of_mem w hw', hc'⟩

theorem getLast?_intercalate_words (ws : List Chars)
    (h : ∀ w ∈ ws, w ≠ [] ∧ ∀ c ∈ w, pySpace c = false) (hne : ws ≠ []) :
    ∃ c, (List.intercalate [' '] ws).getLast? = some c ∧ pySpace c = false := by
  induction ws with
  | nil => exact absurd rfl hne
  | cons w tail ih =>
    obtain ⟨hwne, hwsp⟩ := h w (List.mem_cons_self w tail)
    have htail : ∀ w ∈ tail, w ≠ [] ∧ ∀ c ∈ w, pySpace c = false :=
      fun x hx => h x (List.mem_cons_of_mem w hx)
    cases tail with
    | nil =>
      rw [intercalate_single]
      obtain ⟨c, hc⟩ := Option.isSome_iff_exists.mp (List.getLast?_isSome.mpr hwne)
      refine ⟨c, hc, ?_⟩
      exact hwsp c (List.mem_of_mem_getLast? (by simp [hc]))
    | cons b t =>
      obtain ⟨c, hc, hcsp⟩ := ih htail (by simp)
      refine ⟨c, ?_, hcsp⟩
      rw [intercalate_cons2]
      rw [List.getLast?_append_of_ne_nil _ (by simp)]
      have hbne : List.intercalate [' '] (b :: t) ≠ [] :=
        intercalate_words_ne_nil b t (htail b (List.mem_cons_self b t)).1
      cases hmatch : List.intercalate [' '] (b :: t) with
      | nil => exact absurd hmatch hbne
      | cons x xs =>
        rw [hmatch] at hc
        rw [List.getLast?_cons_cons]
        exact hc

theorem replaceChar_eq_self (a b : Char) (s : Chars) (h : ∀ c ∈ s, c ≠ a) :
    replaceChar a b s = s := by
  unfold replaceChar
  rw [List.map_congr_left (fun c hc => if_neg (h c hc))]
  exact List.map_id s

theorem dropWhile_eq_self_of_head? (s : Chars)
    (h : ∀ c, s.head? = some c → pySpace c = false) :
    s.dropWhile pySpace = s := by
  cases s with
  | nil => rfl
  | cons c cs => simp [List.dropWhile_cons, h c rfl]

theorem head?_intercalate_words (w : Chars) (t : List Chars) (c : Char) (cs : Chars)
    (hw : w = c :: cs) : (List.intercalate [' '] (w :: t)).head? = some c := by
  cases t with
  | nil => rw [intercalate_single, hw]; rfl
  | cons b t' => rw [intercalate_cons2, hw]; rfl

theorem pyStrip_intercalate_words (ws : List Chars)
    (h : ∀ w ∈ ws, w ≠ [] ∧ ∀ c ∈ w, pySpace c = false) :
    pyStrip (List.intercalate [' '] ws) = List.intercalate [' '] ws := by
  cases ws with
  | nil => rw [intercalate_nil_words]; rfl
  | cons w t =>
    obtain ⟨hwne, hwsp⟩ := h w (List.mem_cons_self w t)
    obtain ⟨c, cs, hw⟩ := List.exists_cons_of_ne_nil hwne
    unfold pyStrip
    have h1 : (List.intercalate [' '] (w :: t)).dropWhile pySpace =
        List.intercalate [' '] (w :: t) := by
      refine dropWhile_eq_self_of_head? _ (fun x hx => ?_)
      rw [head?_intercalate_words w t c cs hw] at hx
      cases hx
      exact hwsp c (by simp [hw])
    obtain ⟨d, hd, hdsp⟩ := getLast?_intercalate_words (w :: t) h (by simp)
    have h2 : (List.intercalate [' '] (w :: t)).reverse.dropWhile pySpace =
        (List.intercalate [' '] (w :: t)).reverse := by
      refine dropWhile_eq_self_of_head? _ (fun x hx => ?_)
      rw [List.head?_reverse, hd] at hx
      cases hx
      exact hdsp
    rw [h1, h2]
    exact List.reverse_reverse _

theorem clean_text_eq_join (t : Chars) :
    clean_text t = List.intercalate [' '] (pySplit t) := by
  by_cases ht : t = []
  · subst ht
    simp [clean_text, pySplit, pySplitAux, intercalate_nil_words]
  · unfold clean_text
    rw [if_neg ht]
    have hwords := pySplit_words_nonempty t
    have hmem : ∀ c ∈ List.intercalate [' '] (pySplit t), pySpace c = false ∨ c = ' ' := by
      intro c hc
      rcases mem_intercalate_words _ c hc with rfl | ⟨w, hw, hcw⟩
      · exact Or.inr rfl
      · exact Or.inl ((hwords w hw).2 c hcw)
    have hnot : ∀ a : Char, pySpace a = true → a ≠ ' ' →
        ∀ c ∈ List.intercalate [' '] (pySplit t), c ≠ a := by
      intro a ha ha' c hc he
      subst he
      rcases hmem c hc with hf | hsp
      · rw [ha] at hf; cases hf
      · exact ha' hsp
    have e1 : replaceChar (Char.ofNat 0xa0) ' ' (List.intercalate [' '] (pySplit t)) =
        List.intercalate [' '] (pySplit t) :=
      replaceChar_eq_self _ _ _ (hnot (Char.ofNat 0xa0) (by decide) (by decide))
    have e2 : replaceChar (Char.ofNat 0x3000) ' ' (List.intercalate [' '] (pySplit t)) =
        List.intercalate [' '] (pySplit t) :=
      replaceChar_eq_self _ _ _ (hnot (Char.ofNat 0x3000) (by decide) (by decide))
    have e3 : replaceChar '\t' ' ' (List.intercalate [' '] (pySplit t)) =
        List.intercalate [' '] (pySplit t) :=
      replaceChar_eq_self _ _ _ (hnot '\t' (by decide) (by decide))
    rw [e1, e2, e3]
    exact pyStrip_intercalate_words _ hwords

theorem clean_text_idem (t : Chars) : clean_text (clean_text t) = clean_text t := by
  rw [clean_text_eq_join t]
  by_cases hsp : pySplit t = []
  · rw [hsp, intercalate_nil_words]
    simp [clean_text]
  · rw [clean_text_eq_join, pySplit_intercalate _ (pySplit_words_nonempty t)]

theorem pyStrip_clean_text (t : Chars) : pyStrip (clean_text t) = clean_text t := by
  rw [clean_text_eq_join t]
  exact pyStrip_intercalate_words _ (pySplit_words_nonempty t)

theorem pySplitAux_eq_nil (cur s : Chars) (h : pySplitAux cur s = []) :
    cur = [] ∧ ∀ c ∈ s, pySpace c = true := by
  induction s generalizing cur with
  | nil =>
    by_cases hc : cur = []
    · exact ⟨hc, by simp⟩
    · simp [pySplitAux, hc] at h
  | cons c cs ih =>
    by_cases hsp : pySpace c
    · by_cases hc : cur = []
      · simp only [pySplitAux, hsp, if_true, hc] at h
        obtain ⟨_, hall⟩ := ih [] h
        refine ⟨hc, ?_⟩
        intro x hx
        rcases List.mem_cons.mp hx with rfl | hx
        · exact hsp
        · exact hall x hx
      · simp [pySplitAux, hsp, hc] at h
    · simp only [pySplitAux, hsp, Bool.false_eq_true, if_false] at h
      obtain ⟨habs, _⟩ := ih (c :: cur) h
      cases habs

theorem pySplit_ne_nil_of_nonspace (s : Chars) (c : Char) (hc : c ∈ s)
    (hsp : pySpace c = false) : pySplit s ≠ [] := by
  intro h
  have := (pySplitAux_eq_nil [] s h).2 c hc
  rw [hsp] at this
  cases this

theorem pyStrip_ne_nil_nonspace (s : Chars) (h : pyStrip s ≠ []) :
    ∃ c ∈ s, pySpace c = false := by
  by_contra hno
  push_neg at hno
  have hall : ∀ c ∈ s, pySpace c = true := by
    intro c hc
    have := hno c hc
    simpa using this
  apply h
  unfold pyStrip
  have hnil : s.dropWhile pySpace = [] :=
    List.dropWhile_eq_nil_iff.mpr (fun x hx => hall x hx)
  rw [hnil]
  rfl

theorem clean_text_ne_nil (s : Chars) (h : pyStrip s ≠ []) : clean_text s ≠ [] := by
  obtain ⟨c, hc, hsp⟩ := pyStrip_ne_nil_nonspace s h
  rw [clean_text_eq_join]
  cases hps : pySplit s with
  | nil => exact absurd hps (pySplit_ne_nil_of_nonspace s c hc hsp)
  | cons w t =>
    exact intercalate_words_ne_nil w t (by
      have := pySplit_words_nonempty s w (by rw [hps]; exact List.mem_cons_self w t)
      exact this.1)

end CharsLemmas

/-! ## DataCleaner (`src/data_collection/data_cleaner.py`) -/

/-- `DataCleaner.valid_educations` (a Python set; embedded as a list, used
only through membership). -/
def valid_educations : List Chars :=
  [("不限").data, ("专科").data, ("本科").data, ("硕士").data, ("博士").data,
   ("大专").data, ("学士").data, ("研究生").data, ("PhD").data]

/-- `DataCleaner._normalize_education`'s `edu_mapping`, in the source's
insertion (iteration) order. -/
def edu_mapping : List (Chars × Chars) :=
  [(("大专").data, ("专科").data),
   (("专科及以上").data, ("专科").data),
   (("本科及以上").data, ("本科").data),
   (("硕士及以上").data, ("硕士").data),
   (("博士及以上").data, ("博士").data),
   (("学士").data, ("本科").data),
   (("研究生").data, ("硕士").data),
   (("PhD").data, ("博士").data)]

/-- `DataCleaner._normalize_education`: clean the text, return the value of
the first mapping key occurring as a substring, else keep the value when it
is a known education level, else the unrestricted default. -/
def normalize_education (e : Chars) : Chars :=
  match edu_mapping.find? (fun kv => containsSub kv.1 (clean_text e)) with
  | some kv => kv.2
  | none => if clean_text e ∈ valid_educations then clean_text e else ("不限").data

/-- `DataCleaner._normalize_location`'s `major_cities`, in source order. -/
def major_cities : List Chars :=
  [("北京").data, ("上海").data, ("广州").data, ("深圳").data,
   ("杭州").data, ("南京").data, ("成都").data, ("武汉").data,
   ("西安").data, ("重庆").data, ("天津").data, ("苏州").data,
   ("长沙").data, ("郑州").data, ("青岛").data, ("大连").data]

/-- `DataCleaner._normalize_location`: clean the text, return the first
major city occurring as a substring, else the cleaned text unchanged. -/
def normalize_location (l : Chars) : Chars :=
  match major_cities.find? (fun city => containsSub city (clean_text l)) with
  | some city => city
  | none => clean_text l

/-- ASCII letter. -/
def asciiAlpha (c : Char) : Bool := ('a' ≤ c && c ≤ 'z') || ('A' ≤ c && c ≤ 'Z')

/-- ASCII digit. -/
def asciiDigit (c : Char) : Bool := '0' ≤ c && c ≤ '9'

/-- Characters allowed in a URL scheme (CPython `urllib.parse.scheme_chars`). -/
def schemeChar (c : Char) : Bool := asciiAlpha c || asciiDigit c || c = '+' || c = '-' || c = '.'

/-- ASCII lower-casing, as applied to the parsed scheme. -/
def lowerAscii (c : Char) : Char :=
  if 'A' ≤ c && c ≤ 'Z' then Char.ofNat (c.toNat + 32) else c

/-- The scheme-splitting step of `urllib.parse.urlsplit`: if the text up to
the first `:` is a well-formed scheme (leading ASCII letter, scheme chars),
return it lower-cased together with the remainder, else no scheme. -/
def splitScheme (url : Chars) : Chars × Chars :=
  match splitFirst [':'] url with
  | some (before, after) =>
    match before with
    | [] => ([], url)
    | c :: cs =>
      if asciiAlpha c && (c :: cs).all schemeChar
      then ((c :: cs).map lowerAscii, after) else ([], url)
  | none => ([], url)

/-- The netloc step of `urllib.parse.urlsplit`: after `//`, up to the next
`/`, `?` or `#`; empty when the remainder does not start with `//`. -/
def netlocOf (rest : Chars) : Chars :=
  if leadsWith (("//").data) rest
  then (rest.drop 2).takeWhile (fun c => !(c = '/' || c = '?' || c = '#'))
  else []

/-- `urlsplit` raises `ValueError` on an unbalanced bracket in the netloc
(caught by `_is_valid_url`, which then returns false). -/
def bracketBad (netloc : Chars) : Bool :=
  (containsSub [Char.ofNat 0x5b] netloc && !containsSub [Char.ofNat 0x5d] netloc) ||
  (containsSub [Char.ofNat 0x5d] netloc && !containsSub [Char.ofNat 0x5b] netloc)

/-- `DataCleaner._is_valid_url`: scheme `http` or `https` and non-empty
netloc.  (The NFKC-normalization rejection of exotic non-ASCII netlocs in
CPython `_checknetloc` is not modeled.) -/
def is_valid_url (url : Chars) : Bool :=
  let sr := splitScheme url
  let netloc := netlocOf sr.2
  if bracketBad netloc then false
  else (decide (sr.1 = ("http").data) || decide (sr.1 = ("https").data)) &&
       !netloc.isEmpty

/-- Numeric value of an ASCII digit. -/
def digitVal (c : Char) : Nat := c.toNat - ('0').toNat

/-- `strptime` `%Y` directive (CPython `_strptime`): exactly four digits. -/
def pY : Chars → Option (Nat × Chars)
  | a :: b :: c :: d :: rest =>
    if asciiDigit a && asciiDigit b && asciiDigit c && asciiDigit d then
      some (((digitVal a * 10 + digitVal b) * 10 + digitVal c) * 10 + digitVal d, rest)
    else none
  | _ => none

/-- `strptime` `%m`: regex alternation `1[0-2]|0[1-9]|[1-9]`, alternatives
in regex order. -/
def pM (s : Chars) : List (Nat × Chars) :=
  (match s with
   | a :: b :: r => if a = '1' && '0' ≤ b && b ≤ '2' then [(10 + digitVal b, r)] else []
   | _ => []) ++
  (match s with
   | a :: b :: r => if a = '0' && '1' ≤ b && b ≤ '9' then [(digitVal b, r)] else []
   | _ => []) ++
  (match s with
   | a :: r => if '1' ≤ a && a ≤ '9' then [(digitVal a, r)] else []
   | _ => [])

/-- `strptime` `%d`: regex alternation `3[01]|[12]\d|0[1-9]|[1-9]`. -/
def pD (s : Chars) : List (Nat × Chars) :=
  (match s with
   | a :: b :: r => if a = '3' && ('0' ≤ b && b ≤ '1') then [(30 + digitVal b, r)] else []
   | _ => []) ++
  (match s with
   | a :: b :: r => if ('1' ≤ a && a ≤ '2') && asciiDigit b
                    then [(digitVal a * 10 + digitVal b, r)] else []
   | _ => []) ++
  (match s with
   | a :: b :: r => if a = '0' && '1' ≤ b && b ≤ '9' then [(digitVal b, r)] else []
   | _ => []) ++
  (match s with
   | a :: r => if '1' ≤ a && a ≤ '9' then [(digitVal a, r)] else []
   | _ => [])

/-- `strptime` `%H`: regex alternation `2[0-3]|[0-1]\d|\d`. -/
def pH (s : Chars) : List (Nat × Chars) :=
  (match s with
   | a :: b :: r => if a = '2' && ('0' ≤ b && b ≤ '3') then [(20 + digitVal b, r)] else []
   | _ => []) ++
  (match s with
   | a :: b :: r => if ('0' ≤ a && a ≤ '1') && asciiDigit b
                    then [(digitVal a * 10 + digitVal b, r)] else []
   | _ => []) ++
  (match s with
   | a :: r => if asciiDigit a then [(digitVal a, r)] else []
   | _ => [])

/-- `strptime` `%M`: regex alternation `[0-5]\d|\d`. -/
def pMin (s : Chars) : List (Nat × Chars) :=
  (match s with
   | a :: b :: r => if ('0' ≤ a && a ≤ '5') && asciiDigit b
                    then [(digitVal a * 10 + digitVal b, r)] else []
   | _ => []) ++
  (match s with
   | a :: r => if asciiDigit a then [(digitVal a, r)] else []
   | _ => [])

/-- `strptime` `%S`: regex alternation `6[0-1]|[0-5]\d|\d`. -/
def pS (s : Chars) : List (Nat × Chars) :=
  (match s with
   | a :: b :: r => if a = '6' && ('0' ≤ b && b ≤ '1') then [(60 + digitVal b, r)] else []
   | _ => []) ++
  (match s with
   | a :: b :: r => if ('0' ≤ a && a ≤ '5') && asciiDigit b
                    then [(digitVal a * 10 + digitVal b, r)] else []
   | _ => []) ++
  (match s with
   | a :: r => if asciiDigit a then [(digitVal a, r)] else []
   | _ => [])

/-- Literal character in the `strptime` format. -/
def pLit (c : Char) : Chars → Option Chars
  | x :: r => if x = c then some r else none
  | [] => none

/-- Whitespace in the `strptime` format: CPython compiles it to `\s+`. -/
def pWs : Chars → Option Chars
  | c :: r => if pySpace c then some (r.dropWhile pySpace) else none
  | [] => none

/-- First successful alternative (regex alternation with backtracking). -/
def firstSome (l : List (Option α)) : Option α := (l.filterMap id).head?

/-- `strptime` against `%Y<sep>%m<sep>%d`, full match required. -/
def parseDateOnly (sep : Char) (s : Chars) : Option (Nat × Nat × Nat) :=
  match pY s with
  | none => none
  | some (y, r1) =>
    match pLit sep r1 with
    | none => none
    | some r2 =>
      firstSome ((pM r2).map (fun mo =>
        match pLit sep mo.2 with
        | none => none
        | some r4 =>
          firstSome ((pD r4).map (fun d =>
            if d.2 = [] then some (y, mo.1, d.1) else none))))

/-- `strptime` against `%H:%M:%S` at the end of the input. -/
def parseTimePart (s : Chars) : Option (Nat × Nat × Nat) :=
  firstSome ((pH s).map (fun h =>
    match pLit ':' h.2 with
    | none => none
    | some r1 =>
      firstSome ((pMin r1).map (fun mi =>
        match pLit ':' mi.2 with
        | none => none
        | some r2 =>
          firstSome ((pS r2).map (fun sec =>
            if sec.2 = [] then some (h.1, mi.1, sec.1) else none))))))

/-- `strptime` against `%Y<sep>%m<sep>%d %H:%M:%S`, full match required. -/
def parseDateTime (sep : Char) (s : Chars) : Option (Nat × Nat × Nat × Nat × Nat × Nat) :=
  match pY s with
  | none => none
  | some (y, r1) =>
    match pLit sep r1 with
    | none => none
    | some r2 =>
      firstSome ((pM r2).map (fun mo =>
        match pLit sep mo.2 with
        | none => none
        | some r4 =>
          firstSome ((pD r4).map (fun d =>
            match pWs d.2 with
            | none => none
            | some r5 =>
              (parseTimePart r5).map (fun t => (y, mo.1, d.1, t))))))

/-- A parsed `datetime` value (microseconds are always zero for parsed
deadlines and are handled in the encoding). -/
structure DT where
  y : Nat
  mo : Nat
  d : Nat
  h : Nat
  mi : Nat
  s : Nat
deriving DecidableEq

/-- Gregorian leap year. -/
def leapYear (y : Nat) : Bool := (y % 4 = 0 && y % 100 ≠ 0) || y % 400 = 0

/-- Days in a month. -/
def daysInMonth (y mo : Nat) : Nat :=
  if mo = 2 then (if leapYear y then 29 else 28)
  else if mo = 4 || mo = 6 || mo = 9 || mo = 11 then 30 else 31

/-- The `datetime` constructor's validation (raises `ValueError`, hence
`none`, outside the ranges; note seconds 60–61 pass the `%S` regex but are
rejected here, exactly as in `datetime.strptime`). -/
def mkDT (y mo d h mi s : Nat) : Option DT :=
  if 1 ≤ y ∧ 1 ≤ mo ∧ mo ≤ 12 ∧ 1 ≤ d ∧ d ≤ daysInMonth y mo ∧
     h ≤ 23 ∧ mi ≤ 59 ∧ s ≤ 59
  then some ⟨y, mo, d, h, mi, s⟩ else none

/-- `datetime.strptime(s, "%Y<sep>%m<sep>%d")`. -/
def strptimeDate (sep : Char) (s : Chars) : Option DT :=
  match parseDateOnly sep s with
  | some (y, mo, d) => mkDT y mo d 0 0 0
  | none => none

/-- `datetime.strptime(s, "%Y<sep>%m<sep>%d %H:%M:%S")`. -/
def strptimeDateTime (sep : Char) (s : Chars) : Option DT :=
  match parseDateTime sep s with
  | some (y, mo, d, h, mi, sec) => mkDT y mo d h mi sec
  | none => none

/-- `DataCleaner._is_expired`'s format loop: the four formats tried in
source order, first success wins. -/
def parseDeadline (s : Chars) : Option DT :=
  (strptimeDate '-' s).orElse (fun _ =>
    (strptimeDate '/' s).orElse (fun _ =>
      (strptimeDateTime '-' s).orElse (fun _ => strptimeDateTime '/' s)))

/-- Order-embedding of `datetime` values into ℕ (lexicographic in
year, month, day, hour, minute, second; fields are within their ranges). -/
def encodeDT (t : DT) : Nat :=
  ((((t.y * 13 + t.mo) * 32 + t.d) * 24 + t.h) * 60 + t.mi) * 60 + t.s

/-- `DataCleaner._is_expired`: empty deadline is never expired; otherwise
expired exactly when some format parses to a `datetime` strictly before
`datetime.now()`.  `nowMicro` is the current time in microseconds on the
`encodeDT` scale (so sub-second precision of `now` is represented). -/
def is_expired (deadline : Chars) (nowMicro : Nat) : Bool :=
  if deadline = [] then false
  else
    match parseDeadline deadline with
    | some dt => decide (encodeDT dt * 1000000 < nowMicro)
    | none => false

/-- A raw job record: a Python dict with the fields the cleaner reads.
`none` embeds an absent key. -/
structure Job where
  company_name : Option Chars := none
  job_title : Option Chars := none
  location : Option Chars := none
  apply_url : Option Chars := none
  deadline : Option Chars := none
  education : Option Chars := none
  description : Option Chars := none
  requirements : Option Chars := none
  cleaned_time : Option Nat := none
deriving DecidableEq

/-- The dedup key of `DataCleaner._is_duplicate`: the concatenation of the
raw company name, job title and location (each defaulting to the empty
string).  The MD5 digest of this key is modeled by the key itself: MD5 is
a fixed deterministic function, injective on the record keys considered. -/
def fingerprint (j : Job) : Chars :=
  (j.company_name.getD []) ++ (j.job_title.getD []) ++ (j.location.getD [])

/-- `DataCleaner._is_duplicate`: returns whether the fingerprint was seen,
and the updated seen-set (the set add happens on the miss path). -/
def is_duplicate (seen : List Chars) (j : Job) : Bool × List Chars :=
  if fingerprint j ∈ seen then (true, seen) else (false, fingerprint j :: seen)

/-- One field check of `DataCleaner._check_required_fields`:
`not value or not str(value).strip()` fails the record. -/
def field_ok (v : Chars) : Bool := !v.isEmpty && !(pyStrip v).isEmpty

/-- `DataCleaner._check_required_fields`: company name, job title and apply
URL must all be present and non-blank. -/
def check_required_fields (j : Job) : Bool :=
  field_ok (j.company_name.getD []) && field_ok (j.job_title.getD []) &&
  field_ok (j.apply_url.getD [])

/-- `DataCleaner._normalize_job`: clean the five text fields, normalize
education and location (location is cleaned as a text field first, exactly
as in the source), and stamp the cleaning time. -/
def normalize_job (now : Nat) (j : Job) : Job :=
  { j with
    company_name := j.company_name.map clean_text,
    job_title := j.job_title.map clean_text,
    location := j.location.map (fun l => normalize_location (clean_text l)),
    description := j.description.map clean_text,
    requirements := j.requirements.map clean_text,
    education := j.education.map normalize_education,
    cleaned_time := some now }

/-- The five mutually exclusive per-record outcomes of the
`DataCleaner.clean_jobs` loop. -/
inductive Outcome
  | duplicates
  | missing_fields
  | invalid_url
  | expired
  | valid
deriving DecidableEq

/-- The branch taken by one iteration of the `clean_jobs` loop, in source
order: dedup, required fields, URL, expiry, accept. -/
def classify (seen : List Chars) (now : Nat) (j : Job) : Outcome :=
  if (is_duplicate seen j).1 then .duplicates
  else if !check_required_fields j then .missing_fields
  else if !is_valid_url (j.apply_url.getD []) then .invalid_url
  else if is_expired (j.deadline.getD []) now then .expired
  else .valid

/-- The outcome of every record of a `clean_jobs` run, threading the
seen-fingerprint state. -/
def run_outcomes (now : Nat) (seen : List Chars) : List Job → List Outcome
  | [] => []
  | j :: js => classify seen now j :: run_outcomes now (is_duplicate seen j).2 js

/-- The cleaned (accepted, normalized) records of a `clean_jobs` run. -/
def cleaned_jobs (now : Nat) (seen : List Chars) : List Job → List Job
  | [] => []
  | j :: js =>
    if classify seen now j = .valid
    then normalize_job now j :: cleaned_jobs now (is_duplicate seen j).2 js
    else cleaned_jobs now (is_duplicate seen j).2 js

/-- The `stats` dictionary of `DataCleaner.clean_jobs`. -/
structure Stats where
  total : Nat
  duplicates : Nat
  invalid_url : Nat
  missing_fields : Nat
  expired : Nat
  valid : Nat
deriving DecidableEq

/-- The statistics accumulated by one `clean_jobs` run: `total` is the
input length; each rejection counter counts the records whose loop
iteration took that branch. -/
def clean_stats (now : Nat) (jobs : List Job) : Stats :=
  { total := jobs.length
    duplicates := (run_outcomes now [] jobs).count .duplicates
    invalid_url := (run_outcomes now [] jobs).count .invalid_url
    missing_fields := (run_outcomes now [] jobs).count .missing_fields
    expired := (run_outcomes now [] jobs).count .expired
    valid := (run_outcomes now [] jobs).count .valid }

/-- `DataCleaner.clean_jobs`: the cleaned list plus the accumulated stats
(one fresh cleaner instance, so the seen-set starts empty). -/
def clean_jobs (now : Nat) (jobs : List Job) : List Job × Stats :=
  (cleaned_jobs now [] jobs, clean_stats now jobs)

/-! ## DatasetBuilder (`src/data_processing/dataset_builder.py`) -/

/-- Python `int()` truncation toward zero, applied to the exact rational
value of `total * ratio` (floats are modeled as exact rationals). -/
def intTrunc (q : ℚ) : ℤ := if 0 ≤ q then ⌊q⌋ else -⌊-q⌋

/-- The partition step of `DatasetBuilder.build_from_annotations`:
`samples` is the already-shuffled sample list, `tr`/`er` the train/eval
ratios.  `train = all[:train_size]`, `eval = all[train_size :
train_size+eval_size]`, `test = all[train_size+eval_size :]`.  Python
slicing with the nonnegative sizes arising from nonnegative ratios is
`take`/`drop` (a negative ratio would make Python index from the end;
such ratios are outside the spec's validity range). -/
def build_split (samples : List α) (tr er : ℚ) : List α × List α × List α :=
  let total := samples.length
  let trainSize := (intTrunc (total * tr)).toNat
  let evalSize := (intTrunc (total * er)).toNat
  (samples.take trainSize,
   (samples.drop trainSize).take evalSize,
   samples.drop (trainSize + evalSize))

/-- `DatasetBuilder.MISTRAL_PROMPT_TEMPLATE` applied to an
instruction/response pair: `<s>[INST] {instruction} [/INST] {response}</s>`. -/
def mistral_prompt_template (instruction response : Chars) : Chars :=
  ("<s>[INST] ").data ++ instruction ++ (" [/INST] ").data ++ response ++ ("</s>").data

/-- Remove a leading tag, failing when it is absent. -/
def dropLead (tag s : Chars) : Option Chars :=
  if leadsWith tag s then some (s.drop tag.length) else none

/-- Remove a trailing tag, failing when it is absent. -/
def dropTrail (tag s : Chars) : Option Chars :=
  if trailsWith tag s then some (s.take (s.length - tag.length)) else none

/-- Inverse of the Mistral template: strip the opening tag and the
terminator, then split at the first occurrence of the padded
instruction-close tag. -/
def parse_sample (s : Chars) : Option (Chars × Chars) :=
  match dropLead (("<s>[INST] ").data) s with
  | none => none
  | some s1 =>
    match dropTrail (("</s>").data) s1 with
    | none => none
    | some s2 => splitFirst ((" [/INST] ").data) s2

/-! ## DataValidator (`src/data_processing/data_validator.py`) -/

/-- The three task variants distinguished by the validator's keyword
check. -/
inductive TaskKind
  | user_input_parsing
  | job_matching
  | advice_generation
deriving DecidableEq

/-- A dataset item as seen by the validator: a dict whose `text` key is
either absent (`none`) or holds a string. -/
abbrev Item := Option Chars

/-- The validator's error/warning messages, with their format arguments. -/
inductive VMsg
  | emptyDataset
  | missingTextField (i : Nat)
  | textNotString (i : Nat)
  | noStartTag (i : Nat)
  | missingCloseTag (i : Nat)
  | noEndTag (i : Nat)
  | textTooShort (i : Nat) (len : Nat)
  | textTooLong (i : Nat) (len : Nat)
  | duplicateText (i : Nat)
  | totalDuplicates (n : Nat)
  | taskUnderrepresented (t : TaskKind) (count : Nat) (total : Nat)
  | datasetSmall (n : Nat)
  | samplesLong (maxLen : Nat)
deriving DecidableEq

/-- `DataValidator._check_format` (errors only): every item must be a dict
with a string-valued `text` key.  An absent `text` key trips both the
missing-key error and the not-a-string error (`item.get("text")` is `None`). -/
def check_format : Nat → List Item → List VMsg
  | _, [] => []
  | i, it :: rest =>
    (match it with
     | none => [.missingTextField i, .textNotString i]
     | some _ => []) ++ check_format (i + 1) rest

/-- `DataValidator._check_completeness`: per item, the missing
instruction-close tag is an error; missing start/end tags and length
outside [50, 2048] are warnings.  Returns (errors, warnings). -/
def check_completeness : Nat → List Item → List VMsg × List VMsg
  | _, [] => ([], [])
  | i, it :: rest =>
    let text := it.getD []
    let es := (check_completeness (i + 1) rest).1
    let ws := (check_completeness (i + 1) rest).2
    ((if containsSub (("[/INST]").data) text then [] else [.missingCloseTag i]) ++ es,
     (if leadsWith (("<s>[INST]").data) text then [] else [.noStartTag i]) ++
     (if trailsWith (("</s>").data) text then [] else [.noEndTag i]) ++
     (if text.length < 50 then [.textTooShort i text.length]
      else if 2048 < text.length then [.textTooLong i text.length] else []) ++ ws)

/-- The duplicate-scan of `DataValidator._check_content_quality`: per-item
duplicate warnings plus the running duplicate count. -/
def dup_warnings (seen : List Chars) (i : Nat) : List Item → List VMsg × Nat
  | [] => ([], 0)
  | it :: rest =>
    let text := it.getD []
    if text ∈ seen then
      ((.duplicateText i) :: (dup_warnings seen (i + 1) rest).1,
       (dup_warnings seen (i + 1) rest).2 + 1)
    else dup_warnings (text :: seen) (i + 1) rest

/-- The keyword marker phrases of each task category, from the source's
`keyword_counts` update conditions. -/
def task_markers : TaskKind → Chars × Chars
  | .user_input_parsing => (("解析用户的求职需求").data, ("提取关键信息").data)
  | .job_matching => (("匹配合适的岗位").data, ("匹配结果").data)
  | .advice_generation => (("职业规划").data, ("简历优化").data)

/-- Does a text count toward a task category?  (Substring match against
either marker phrase; one text may count toward several categories.) -/
def matches_task (t : TaskKind) (text : Chars) : Bool :=
  containsSub (task_markers t).1 text || containsSub (task_markers t).2 text

/-- `keyword_counts[t]` after the scan. -/
def task_count (t : TaskKind) (data : List Item) : Nat :=
  (data.filter (fun it => matches_task t (it.getD []))).length

/-- `total = sum(keyword_counts.values())`. -/
def task_total (data : List Item) : Nat :=
  task_count .user_input_parsing data + task_count .job_matching data +
  task_count .advice_generation data

/-- Dict iteration order of `keyword_counts` (insertion order). -/
def task_order : List TaskKind := [.user_input_parsing, .job_matching, .advice_generation]

/-- The task-balance warnings: when the total is positive, one warning per
task whose ratio is below 15%.  `count/total < 0.15` is evaluated in exact
rational arithmetic: `20 * count < 3 * total` (the float comparison of the
source agrees for all realistic dataset sizes, < 2^49 items). -/
def ratio_warnings (data : List Item) : List VMsg :=
  if 0 < task_total data then
    task_order.foldr (fun t acc =>
      if 20 * task_count t data < 3 * task_total data
      then .taskUnderrepresented t (task_count t data) (task_total data) :: acc
      else acc) []
  else []

/-- `DataValidator._check_content_quality` (warnings only): per-item
duplicate warnings, the duplicate total, then the task-balance warnings. -/
def check_content_quality (data : List Item) : List VMsg :=
  (dup_warnings [] 0 data).1 ++
  (if 0 < (dup_warnings [] 0 data).2
   then [.totalDuplicates (dup_warnings [] 0 data).2] else []) ++
  ratio_warnings data

/-- `DataValidator._check_statistics` (warnings only): dataset size below
1000 and maximum text length above 2048.  (The min/mean lengths are only
logged, never turned into messages.) -/
def check_statistics (data : List Item) : List VMsg :=
  (if data.length < 1000 then [.datasetSmall data.length] else []) ++
  (if 2048 < (data.map (fun it => (it.getD []).length)).foldr max 0
   then [.samplesLong ((data.map (fun it => (it.getD []).length)).foldr max 0)] else [])

/-- Sample records used by witnesses, mirroring the sample data in the
source's `main()`. -/
def jobA : Job :=
  { company_name := some (("字节跳动").data)
    job_title := some (("后端开发工程师").data)
    location := some (("北京市海淀区").data)
    education := some (("本科及以上").data)
    apply_url := some (("https://jobs.bytedance.com/12345").data) }

/-- A record with the same raw dedup triple as `jobA` but a different
apply URL. -/
def jobB : Job :=
  { company_name := some (("字节跳动").data)
    job_title := some (("后端开发工程师").data)
    location := some (("北京市海淀区").data)
    education := some (("本科").data)
    apply_url := some (("https://jobs.bytedance.com/67890").data) }

/-- A record missing its apply URL (rejected for missing fields). -/
def jobNoUrl : Job :=
  { company_name := some (("Acme").data)
    job_title := some (("Engineer").data)
    location := some (("Beijing").data) }

/-- A record with the same raw dedup triple as `jobNoUrl` but a valid
apply URL. -/
def jobNoUrlTwin : Job :=
  { company_name := some (("Acme").data)
    job_title := some (("Engineer").data)
    location := some (("Beijing").data)
    apply_url := some (("https://acme.example/123").data) }

/-- The result triple of `DataValidator.validate_dataset`. -/
structure VResult where
  passed : Bool
  errors : List VMsg
  warnings : List VMsg
deriving DecidableEq

/-- `DataValidator.validate_dataset` on already-loaded data: empty data
short-circuits to a single error; otherwise all four checks run fully and
`passed` holds exactly when the error list is empty. -/
def validate_dataset (data : List Item) : VResult :=
  if data.isEmpty then ⟨false, [.emptyDataset], []⟩
  else
    ⟨(check_format 0 data ++ (check_completeness 0 data).1).isEmpty,
     check_format 0 data ++ (check_completeness 0 data).1,
     (check_completeness 0 data).2 ++ check_content_quality data ++ check_statistics data⟩

/-! ## Helper lemmas for the cleaning pipeline -/

theorem length_run_outcomes (now : Nat) (seen : List Chars) (jobs : List Job) :
    (run_outcomes now seen jobs).length = jobs.length := by
  induction jobs generalizing seen with
  | nil => rfl
  | cons a t ih => simp [run_outcomes, ih]

theorem outcome_count_partition (l : List Outcome) :
    l.length = l.count .duplicates + l.count .missing_fields + l.count .invalid_url +
               l.count .expired + l.count .valid := by
  induction l with
  | nil => rfl
  | cons o t ih =>
    cases o <;> simp [List.count_cons, ih] <;> omega

theorem mem_is_duplicate_state (seen : List Chars) (j : Job) (x : Chars)
    (hx : x ∈ seen) : x ∈ (is_duplicate seen j).2 := by
  unfold is_duplicate
  by_cases h : fingerprint j ∈ seen
  · simpa [h] using hx
  · simp [h]
    exact Or.inr hx

theorem fingerprint_mem_is_duplicate_state (seen : List Chars) (j : Job) :
    fingerprint j ∈ (is_duplicate seen j).2 := by
  unfold is_duplicate
  by_cases h : fingerprint j ∈ seen
  · simp [h]
  · simp [h]

theorem classify_duplicates_of_mem (seen : List Chars) (now : Nat) (j : Job)
    (h : fingerprint j ∈ seen) : classify seen now j = .duplicates := by
  simp [classify, is_duplicate, h]

theorem run_outcomes_dup_of_seen (jobs : List Job) (seen : List Chars) (now : Nat)
    (k : Nat) (rk : Job) (hk : jobs[k]? = some rk)
    (hmem : fingerprint rk ∈ seen) :
    (run_outcomes now seen jobs)[k]? = some .duplicates := by
  induction jobs generalizing seen k with
  | nil => simp at hk
  | cons a t ih =>
    cases k with
    | zero =>
      simp only [List.getElem?_cons_zero, Option.some.injEq] at hk
      subst hk
      simp [run_outcomes, classify_duplicates_of_mem seen now a hmem]
    | succ k' =>
      simp only [List.getElem?_cons_succ] at hk
      simp only [run_outcomes, List.getElem?_cons_succ]
      exact ih (is_duplicate seen a).2 k' hk
        (mem_is_duplicate_state seen a (fingerprint rk) hmem)

/-! ## Claim theorems -/

/-- C1: after one `clean_jobs` run the accumulated statistics satisfy
`total = valid + duplicates + missing_fields + invalid_url + expired`;
`total` is the input length and every input record takes exactly one of
the five mutually exclusive outcome branches, so each record increments
exactly one counter. -/
theorem C1_filter_totality (now : Nat) (jobs : List Job) :
    (clean_jobs now jobs).2.total =
      (clean_jobs now jobs).2.valid + (clean_jobs now jobs).2.duplicates +
      (clean_jobs now jobs).2.missing_fields + (clean_jobs now jobs).2.invalid_url +
      (clean_jobs now jobs).2.expired ∧
    (clean_jobs now jobs).2.total = jobs.length := by
  refine ⟨?_, rfl⟩
  show jobs.length = _
  have hlen := length_run_outcomes now [] jobs
  have hpart := outcome_count_partition (run_outcomes now [] jobs)
  simp only [clean_jobs, clean_stats]
  omega

/-- C4: within one cleaner instance, the first duplicate check for a new
raw fingerprint returns false and records it; any check for an
already-recorded fingerprint returns true; the recorded set only grows;
and of two records identical in raw company/title/location but with
different apply URLs, the second is classified `duplicates`. -/
theorem C4_dedup_first_false_then_true :
    (∀ (seen : List Chars) (j : Job), fingerprint j ∉ seen →
      is_duplicate seen j = (false, fingerprint j :: seen)) ∧
    (∀ (seen : List Chars) (j : Job), fingerprint j ∈ seen →
      (is_duplicate seen j).1 = true) ∧
    (∀ (seen : List Chars) (j : Job) (x : Chars), x ∈ seen →
      x ∈ (is_duplicate seen j).2) ∧
    (∀ (now : Nat) (r1 r2 : Job),
      r1.company_name = r2.company_name → r1.job_title = r2.job_title →
      r1.location = r2.location → r1.apply_url ≠ r2.apply_url →
      (run_outcomes now [] [r1, r2])[1]? = some .duplicates) := by
  refine ⟨?_, ?_, ?_, ?_⟩
  · intro seen j h
    simp [is_duplicate, h]
  · intro seen j h
    simp [is_duplicate, h]
  · intro seen j x hx
    exact mem_is_duplicate_state seen j x hx
  · intro now r1 r2 hc ht hl _
    have hfp : fingerprint r2 = fingerprint r1 := by
      simp [fingerprint, hc, ht, hl]
    simp only [run_outcomes, List.getElem?_cons_succ, List.getElem?_cons_zero,
      Option.some.injEq]
    apply classify_duplicates_of_mem
    rw [hfp]
    exact fingerprint_mem_is_duplicate_state [] r1

/-- C4 witness: concrete first-miss, subsequent-hit, growth and
two-record-scenario instances of the theorem. -/
theorem C4_dedup_first_false_then_true_witness :
    is_duplicate [] jobA = (false, [fingerprint jobA]) ∧
    (is_duplicate [fingerprint jobA] jobA).1 = true ∧
    fingerprint jobA ∈ (is_duplicate [fingerprint jobA] jobB).2 ∧
    (run_outcomes 0 [] [jobA, jobB])[1]? = some .duplicates :=
  ⟨C4_dedup_first_false_then_true.1 [] jobA (by decide),
   C4_dedup_first_false_then_true.2.1 [fingerprint jobA] jobA (by decide),
   C4_dedup_first_false_then_true.2.2.1 [fingerprint jobA] jobB (fingerprint jobA)
     (by decide),
   C4_dedup_first_false_then_true.2.2.2 0 jobA jobB rfl rfl rfl (by decide)⟩

/-- C10: the duplicate check records a record's fingerprint whether or not
the record is later accepted: whenever an earlier record shares the raw
fingerprint of a later one, the later record's outcome is `duplicates`,
regardless of how the earlier record itself was classified. -/
theorem C10_duplicate_after_any_rejection (now : Nat) (jobs : List Job)
    (i j : Nat) (ri rj : Job) (hi : jobs[i]? = some ri) (hj : jobs[j]? = some rj)
    (hij : i < j) (hfp : fingerprint ri = fingerprint rj) :
    (run_outcomes now [] jobs)[j]? = some .duplicates := by
  suffices h : ∀ (jobs : List Job) (seen : List Chars) (i j : Nat) (ri rj : Job),
      jobs[i]? = some ri → jobs[j]? = some rj → i < j →
      fingerprint ri = fingerprint rj →
      (run_outcomes now seen jobs)[j]? = some .duplicates by
    exact h jobs [] i j ri rj hi hj hij hfp
  intro jobs
  induction jobs with
  | nil => intro seen i j ri rj hi; simp at hi
  | cons a t ih =>
    intro seen i j ri rj hi hj hij hfp
    cases j with
    | zero => omega
    | succ j' =>
      simp only [List.getElem?_cons_succ] at hj
      simp only [run_outcomes, List.getElem?_cons_succ]
      cases i with
      | zero =>
        simp only [List.getElem?_cons_zero, Option.some.injEq] at hi
        refine run_outcomes_dup_of_seen t _ now j' rj hj ?_
        rw [← hfp, ← hi]
        exact fingerprint_mem_is_duplicate_state seen a
      | succ i' =>
        simp only [List.getElem?_cons_succ] at hi
        exact ih (is_duplicate seen a).2 i' j' ri rj hi hj (by omega) hfp

/-- C10 witness: the first record is rejected for missing fields (it has
no apply URL) and appears in no output, yet its twin with the same raw
triple is still counted a duplicate. -/
theorem C10_duplicate_after_any_rejection_witness :
    (run_outcomes 0 [] [jobNoUrl, jobNoUrlTwin])[1]? = some .duplicates ∧
    (run_outcomes 0 [] [jobNoUrl, jobNoUrlTwin])[0]? = some .missing_fields ∧
    (clean_jobs 0 [jobNoUrl, jobNoUrlTwin]).1 = [] ∧
    (clean_jobs 0 [jobNoUrl, jobNoUrlTwin]).2.duplicates = 1 :=
  ⟨C10_duplicate_after_any_rejection 0 [jobNoUrl, jobNoUrlTwin] 0 1 jobNoUrl
      jobNoUrlTwin (by decide) (by decide) (by decide) (by decide),
   by decide, by decide, by decide⟩

theorem classify_valid_checks (seen : List Chars) (now : Nat) (j : Job)
    (h : classify seen now j = Outcome.valid) :
    check_required_fields j = true ∧ is_valid_url (j.apply_url.getD []) = true := by
  unfold classify at h
  split at h
  next hdup => cases h
  next hdup =>
    split at h
    next hreq => cases h
    next hreq =>
      split at h
      next hurl => cases h
      next hurl =>
        split at h
        next hexp => cases h
        next hexp => exact ⟨by simpa using hreq, by simpa using hurl⟩

theorem field_ok_strip (v : Chars) (h : field_ok v = true) : pyStrip v ≠ [] := by
  simp only [field_ok, Bool.and_eq_true, Bool.not_eq_true', List.isEmpty_eq_false] at h
  exact h.2

/-- C3: every cleaned output record has a non-empty company name and job
title after trimming, and an apply URL passing the scheme/netloc URL
check (the URL is carried through normalization unchanged). -/
theorem C3_cleaned_record_invariant (now : Nat) (seen : List Chars) (jobs : List Job) :
    ∀ c ∈ cleaned_jobs now seen jobs,
      pyStrip (c.company_name.getD []) ≠ [] ∧
      pyStrip (c.job_title.getD []) ≠ [] ∧
      is_valid_url (c.apply_url.getD []) = true := by
  induction jobs generalizing seen with
  | nil => intro c hc; simp [cleaned_jobs] at hc
  | cons a t ih =>
    intro c hc
    unfold cleaned_jobs at hc
    by_cases hv : classify seen now a = .valid
    · rw [if_pos hv] at hc
      rcases List.mem_cons.mp hc with rfl | hc
      · obtain ⟨hreq, hurl⟩ := classify_valid_checks seen now a hv
        unfold check_required_fields at hreq
        simp only [Bool.and_eq_true] at hreq
        obtain ⟨⟨hco, hti⟩, _⟩ := hreq
        refine ⟨?_, ?_, ?_⟩
        · cases hc2 : a.company_name with
          | none => rw [hc2] at hco; simp [field_ok, pyStrip] at hco
          | some s =>
            rw [hc2] at hco
            simp only [Option.getD_some] at hco
            simp only [normalize_job, hc2, Option.map_some', Option.getD_some]
            rw [pyStrip_clean_text]
            exact clean_text_ne_nil s (field_ok_strip s hco)
        · cases hc2 : a.job_title with
          | none => rw [hc2] at hti; simp [field_ok, pyStrip] at hti
          | some s =>
            rw [hc2] at hti
            simp only [Option.getD_some] at hti
            simp only [normalize_job, hc2, Option.map_some', Option.getD_some]
            rw [pyStrip_clean_text]
            exact clean_text_ne_nil s (field_ok_strip s hti)
        · exact hurl
      · exact ih (is_duplicate seen a).2 c hc
    · rw [if_neg hv] at hc
      exact ih (is_duplicate seen a).2 c hc

/-- C3 witness: the invariant instantiated on a concrete accepted record. -/
theorem C3_cleaned_record_invariant_witness :
    pyStrip ((normalize_job 0 jobA).company_name.getD []) ≠ [] ∧
    pyStrip ((normalize_job 0 jobA).job_title.getD []) ≠ [] ∧
    is_valid_url ((normalize_job 0 jobA).apply_url.getD []) = true :=
  C3_cleaned_record_invariant 0 [] [jobA] (normalize_job 0 jobA) (by decide)

/-! ## Idempotence of normalization -/

theorem normalize_education_canonical (e : Chars) :
    normalize_education e ∈
      [("不限").data, ("专科").data, ("本科").data, ("硕士").data, ("博士").data] := by
  cases hf : edu_mapping.find? (fun kv => containsSub kv.1 (clean_text e)) with
  | some kv =>
    have he : normalize_education e = kv.2 := by
      unfold normalize_education
      rw [hf]
    rw [he]
    have hm := List.mem_of_find?_eq_some hf
    simp only [edu_mapping, List.mem_cons, List.not_mem_nil, or_false] at hm
    rcases hm with rfl | rfl | rfl | rfl | rfl | rfl | rfl | rfl <;> decide
  | none =>
    have he : normalize_education e =
        if clean_text e ∈ valid_educations then clean_text e else ("不限").data := by
      unfold normalize_education
      rw [hf]
    rw [he]
    by_cases hv : clean_text e ∈ valid_educations
    · rw [if_pos hv]
      have hall := List.find?_eq_none.mp hf
      simp only [valid_educations, List.mem_cons, List.not_mem_nil, or_false] at hv
      rcases hv with h | h | h | h | h | h | h | h | h
      · rw [h]; decide
      · rw [h]; decide
      · rw [h]; decide
      · rw [h]; decide
      · rw [h]; decide
      · exfalso
        have := hall ((("大专").data, ("专科").data)) (by simp [edu_mapping])
        rw [h] at this
        exact this (by decide)
      · exfalso
        have := hall ((("学士").data, ("本科").data)) (by simp [edu_mapping])
        rw [h] at this
        exact this (by decide)
      · exfalso
        have := hall ((("研究生").data, ("硕士").data)) (by simp [edu_mapping])
        rw [h] at this
        exact this (by decide)
      · exfalso
        have := hall ((("PhD").data, ("博士").data)) (by simp [edu_mapping])
        rw [h] at this
        exact this (by decide)
    · rw [if_neg hv]; decide

theorem normalize_education_idem (e : Chars) :
    normalize_education (normalize_education e) = normalize_education e := by
  have h := normalize_education_canonical e
  simp only [List.mem_cons, List.not_mem_nil, or_false] at h
  rcases h with h | h | h | h | h <;> rw [h] <;> decide

theorem normalize_location_cases (l : Chars) :
    normalize_location l ∈ major_cities ∨ normalize_location l = clean_text l := by
  unfold normalize_location
  cases hf : major_cities.find? (fun city => containsSub city (clean_text l)) with
  | some city => exact Or.inl (List.mem_of_find?_eq_some hf)
  | none => exact Or.inr rfl

theorem normalize_location_clean_idem (l : Chars) :
    normalize_location (clean_text (normalize_location (clean_text l))) =
      normalize_location (clean_text l) := by
  rcases normalize_location_cases (clean_text l) with hc | he
  · simp only [major_cities, List.mem_cons, List.not_mem_nil, or_false] at hc
    rcases hc with h | h | h | h | h | h | h | h | h | h | h | h | h | h | h | h <;>
      rw [h] <;> decide
  · rw [clean_text_idem] at he
    rw [he, clean_text_idem, he]

theorem opt_clean_text_idem (o : Option Chars) :
    (o.map clean_text).map clean_text = o.map clean_text := by
  cases o <;> simp [clean_text_idem]

theorem opt_location_idem (o : Option Chars) :
    ((o.map (fun l => normalize_location (clean_text l))).map
        (fun l => normalize_location (clean_text l))) =
      o.map (fun l => normalize_location (clean_text l)) := by
  cases o <;> simp [normalize_location_clean_idem]

theorem opt_education_idem (o : Option Chars) :
    (o.map normalize_education).map normalize_education = o.map normalize_education := by
  cases o <;> simp [normalize_education_idem]

/-- C5: re-normalizing a normalized record changes nothing except the
cleaning timestamp, which is re-stamped. -/
theorem C5_normalize_job_idempotent (now1 now2 : Nat) (j : Job) :
    normalize_job now2 (normalize_job now1 j) =
      { normalize_job now1 j with cleaned_time := some now2 } := by
  cases j with
  | mk co ti lo ur dl ed de re ct =>
    simp only [normalize_job, Job.mk.injEq]
    exact ⟨opt_clean_text_idem co, opt_clean_text_idem ti, opt_location_idem lo, trivial,
      trivial, opt_education_idem ed, opt_clean_text_idem de, opt_clean_text_idem re, trivial⟩

/-- C7: the expiry check is fail-open and returns true exactly when the
deadline parses under one of the four formats (tried in source order,
first success winning) to a datetime strictly before the current
processing time; an absent deadline, an unparseable one (wrong layout or
invalid calendar date) never expires and never raises.  The concrete
conjuncts exercise each accepted format, an invalid calendar date, an
unsupported layout, and both outcomes of the strict comparison. -/
theorem C7_expired_fail_open :
    (∀ now, is_expired [] now = false) ∧
    (∀ deadline now, is_expired deadline now = true ↔
      ∃ dt, parseDeadline deadline = some dt ∧ encodeDT dt * 1000000 < now) ∧
    parseDeadline (("2025-12-31").data) = some ⟨2025, 12, 31, 0, 0, 0⟩ ∧
    parseDeadline (("2025/06/30").data) = some ⟨2025, 6, 30, 0, 0, 0⟩ ∧
    parseDeadline (("2025-06-30 12:30:45").data) = some ⟨2025, 6, 30, 12, 30, 45⟩ ∧
    parseDeadline (("2025/06/30 12:30:45").data) = some ⟨2025, 6, 30, 12, 30, 45⟩ ∧
    parseDeadline (("2023-02-29").data) = none ∧
    parseDeadline (("2024-02-29").data) = some ⟨2024, 2, 29, 0, 0, 0⟩ ∧
    parseDeadline (("30-06-2025").data) = none ∧
    parseDeadline (("2025-06-30 12:00:61").data) = none ∧
    is_expired (("2020-01-01").data) (encodeDT ⟨2025, 1, 1, 0, 0, 0⟩ * 1000000) = true ∧
    is_expired (("2030-01-01").data) (encodeDT ⟨2025, 1, 1, 0, 0, 0⟩ * 1000000) = false ∧
    is_expired (("not a date").data) 99999999999999999 = false := by
  refine ⟨?_, ?_, by decide, by decide, by decide, by decide, by decide, by decide,
    by decide, by decide, by decide, by decide, by decide⟩
  · intro now
    simp [is_expired]
  · intro deadline now
    by_cases hd : deadline = []
    · subst hd
      rw [show is_expired [] now = false from by simp [is_expired]]
      simp only [Bool.false_eq_true, false_iff]
      rintro ⟨dt, hp, _⟩
      rw [show parseDeadline [] = none from by decide] at hp
      cases hp
    · simp only [is_expired, if_neg hd]
      cases hp : parseDeadline deadline with
      | none =>
        simp only [Bool.false_eq_true, false_iff]
        rintro ⟨dt, hp2, _⟩
        cases hp2
      | some dt =>
        simp only [decide_eq_true_eq]
        constructor
        · intro h
          exact ⟨dt, rfl, h⟩
        · rintro ⟨dt', hp2, hlt⟩
          cases hp2
          exact hlt

/-- C2: with nonnegative ratios summing to at most one, the split takes
the first `floor(N*train_ratio)` shuffled samples for train, the next
`floor(N*eval_ratio)` for eval, and the rest for test; the three slice
lengths are exactly those sizes and add up to `N`, and concatenating the
slices recovers the shuffled input (pairwise-disjoint index ranges,
jointly exhaustive). -/
theorem C2_split_partition {α : Type} (samples : List α) (tr er : ℚ)
    (h1 : 0 ≤ tr) (h2 : 0 ≤ er) (h3 : tr + er ≤ 1) :
    (build_split samples tr er).1 =
      samples.take (⌊(samples.length : ℚ) * tr⌋).toNat ∧
    (build_split samples tr er).2.1 =
      (samples.drop (⌊(samples.length : ℚ) * tr⌋).toNat).take
        (⌊(samples.length : ℚ) * er⌋).toNat ∧
    (build_split samples tr er).2.2 =
      samples.drop
        ((⌊(samples.length : ℚ) * tr⌋).toNat + (⌊(samples.length : ℚ) * er⌋).toNat) ∧
    (build_split samples tr er).1.length = (⌊(samples.length : ℚ) * tr⌋).toNat ∧
    (build_split samples tr er).2.1.length = (⌊(samples.length : ℚ) * er⌋).toNat ∧
    (build_split samples tr er).1.length + (build_split samples tr er).2.1.length +
      (build_split samples tr er).2.2.length = samples.length ∧
    (build_split samples tr er).1 ++ (build_split samples tr er).2.1 ++
      (build_split samples tr er).2.2 = samples := by
  have hNq : (0 : ℚ) ≤ (samples.length : ℚ) := Nat.cast_nonneg _
  have htr0 : (0 : ℚ) ≤ (samples.length : ℚ) * tr := mul_nonneg hNq h1
  have her0 : (0 : ℚ) ≤ (samples.length : ℚ) * er := mul_nonneg hNq h2
  have hts : intTrunc ((samples.length : ℚ) * tr) = ⌊(samples.length : ℚ) * tr⌋ :=
    if_pos htr0
  have hes : intTrunc ((samples.length : ℚ) * er) = ⌊(samples.length : ℚ) * er⌋ :=
    if_pos her0
  have hfl1 : (0 : ℤ) ≤ ⌊(samples.length : ℚ) * tr⌋ := Int.floor_nonneg.mpr htr0
  have hfl2 : (0 : ℤ) ≤ ⌊(samples.length : ℚ) * er⌋ := Int.floor_nonneg.mpr her0
  have hsumZ : ⌊(samples.length : ℚ) * tr⌋ + ⌊(samples.length : ℚ) * er⌋ ≤
      (samples.length : ℤ) := by
    have hle : ((⌊(samples.length : ℚ) * tr⌋ + ⌊(samples.length : ℚ) * er⌋ : ℤ) : ℚ) ≤
        (samples.length : ℚ) * tr + (samples.length : ℚ) * er := by
      push_cast
      exact add_le_add (Int.floor_le _) (Int.floor_le _)
    have hsum1 : (samples.length : ℚ) * tr + (samples.length : ℚ) * er ≤
        (samples.length : ℚ) := by
      have hm := mul_le_mul_of_nonneg_left h3 hNq
      rw [mul_add] at hm
      simpa using hm
    exact_mod_cast le_trans hle hsum1
  have hsumN : (⌊(samples.length : ℚ) * tr⌋).toNat + (⌊(samples.length : ℚ) * er⌋).toNat ≤
      samples.length := by
    rw [← Int.toNat_add hfl1 hfl2]
    have := Int.toNat_le_toNat hsumZ
    simpa using this
  have htsN : (⌊(samples.length : ℚ) * tr⌋).toNat ≤ samples.length := by omega
  have hthree : ∀ (l : List α) (a b : Nat),
      l.take a ++ ((l.drop a).take b ++ l.drop (a + b)) = l := by
    intro l a b
    have hdd : (l.drop a).drop b = l.drop (a + b) := by
      rw [List.drop_drop, Nat.add_comm]
    rw [← hdd, List.take_append_drop, List.take_append_drop]
  simp only [build_split, hts, hes]
  refine ⟨trivial, trivial, trivial, ?_, ?_, ?_, ?_⟩
  · rw [List.length_take]
    omega
  · rw [List.length_take, List.length_drop]
    omega
  · simp only [List.length_take, List.length_drop]
    omega
  · rw [List.append_assoc]
    exact hthree samples _ _

/-- C2 witness: the theorem instantiated on ten samples with ratios
0.8 / 0.1, together with the fully evaluated 8/1/1 split. -/
theorem C2_split_partition_witness :
    ((0 : ℚ) ≤ 4/5) ∧ ((0 : ℚ) ≤ 1/10) ∧ ((4/5 + 1/10 : ℚ) ≤ 1) ∧
    ((build_split [0, 1, 2, 3, 4, 5, 6, 7, 8, 9] (4/5 : ℚ) (1/10)).1.length =
      (⌊(([0, 1, 2, 3, 4, 5, 6, 7, 8, 9] : List ℕ).length : ℚ) * (4/5)⌋).toNat) ∧
    build_split [0, 1, 2, 3, 4, 5, 6, 7, 8, 9] (4/5 : ℚ) (1/10) =
      ([0, 1, 2, 3, 4, 5, 6, 7], [8], [9]) := by
  have h := C2_split_partition [0, 1, 2, 3, 4, 5, 6, 7, 8, 9] (4/5 : ℚ) (1/10)
    (by norm_num) (by norm_num) (by norm_num)
  obtain ⟨e1, e2, e3, e4, _⟩ := h
  have htsZ : ⌊(([0, 1, 2, 3, 4, 5, 6, 7, 8, 9] : List ℕ).length : ℚ) * (4/5)⌋ = (8 : ℤ) := by
    norm_num
  have hesZ : ⌊(([0, 1, 2, 3, 4, 5, 6, 7, 8, 9] : List ℕ).length : ℚ) * (1/10)⌋ = (1 : ℤ) := by
    norm_num
  have hts : (⌊(([0, 1, 2, 3, 4, 5, 6, 7, 8, 9] : List ℕ).length : ℚ) * (4/5)⌋).toNat = 8 := by
    rw [htsZ]
    rfl
  have hes : (⌊(([0, 1, 2, 3, 4, 5, 6, 7, 8, 9] : List ℕ).length : ℚ) * (1/10)⌋).toNat = 1 := by
    rw [hesZ]
    rfl
  refine ⟨by norm_num, by norm_num, by norm_num, e4, ?_⟩
  rw [show build_split [0, 1, 2, 3, 4, 5, 6, 7, 8, 9] (4/5 : ℚ) (1/10) =
      ((build_split [0, 1, 2, 3, 4, 5, 6, 7, 8, 9] (4/5 : ℚ) (1/10)).1,
       (build_split [0, 1, 2, 3, 4, 5, 6, 7, 8, 9] (4/5 : ℚ) (1/10)).2.1,
       (build_split [0, 1, 2, 3, 4, 5, 6, 7, 8, 9] (4/5 : ℚ) (1/10)).2.2) from rfl,
    e1, e2, e3, hts, hes]
  rfl

/-! ## Occurrence counting for the template round-trip -/

theorem leadsWith_short (pat u : Chars) (h : u.length < pat.length) :
    leadsWith pat u = false := by
  have ht : u.take pat.length = u := List.take_of_length_le (le_of_lt h)
  simp only [leadsWith, ht]
  apply decide_eq_false
  intro he
  rw [he] at h
  exact lt_irrefl _ h

theorem leadsWith_append_of_le (pat u v : Chars) (h : pat.length ≤ u.length) :
    leadsWith pat (u ++ v) = leadsWith pat u := by
  simp only [leadsWith]
  rw [List.take_append_eq_append_take, Nat.sub_eq_zero_of_le h, List.take_zero,
    List.append_nil]

theorem leadsWith_append_long (pat u e : Chars) (hlt : u.length < pat.length)
    (h : leadsWith pat (u ++ e) = true) :
    pat = u ++ e.take (pat.length - u.length) := by
  simp only [leadsWith, decide_eq_true_eq] at h
  rw [List.take_append_eq_append_take, List.take_of_length_le (le_of_lt hlt)] at h
  exact h.symm

theorem leadsWith_self_append (pat rest : Chars) :
    leadsWith pat (pat ++ rest) = true := by
  simp [leadsWith, List.take_left]

theorem leadsWith_append_step (pat e : Chars)
    (hcross : ∀ k, k < pat.length → 0 < k → leadsWith pat (pat.take k ++ e) = false)
    (u : Chars) (hune : u ≠ []) :
    leadsWith pat (u ++ e) = leadsWith pat u := by
  by_cases hlen : pat.length ≤ u.length
  · exact leadsWith_append_of_le pat u e hlen
  · push_neg at hlen
    rw [leadsWith_short pat u hlen]
    by_cases hl : leadsWith pat (u ++ e) = true
    · exfalso
      have hp := leadsWith_append_long pat u e hlen hl
      have hu : pat.take u.length = u := by
        rw [hp, List.take_left]
      have hfalse := hcross u.length hlen (List.length_pos.mpr hune)
      rw [hu, hl] at hfalse
      cases hfalse
    · exact Bool.eq_false_iff.mpr hl

theorem countOcc_append (pat : Chars) (hne : pat ≠ []) (e : Chars)
    (hcross : ∀ k, k < pat.length → 0 < k → leadsWith pat (pat.take k ++ e) = false)
    (s : Chars) : countOcc pat (s ++ e) = countOcc pat s + countOcc pat e := by
  induction s with
  | nil =>
    have h0 : leadsWith pat [] = false :=
      leadsWith_short pat [] (List.length_pos.mpr hne)
    simp [countOcc, h0]
  | cons c cs ih =>
    simp only [List.cons_append, countOcc, List.append_eq]
    rw [ih]
    have hstep := leadsWith_append_step pat e hcross (c :: cs) (by simp)
    simp only [List.cons_append] at hstep
    simp only [hstep]
    cases hx : leadsWith pat (c :: cs) <;> simp [hx, Nat.add_assoc]

theorem space_free_hcross (pat : Chars) (hsp : ∀ c ∈ pat, c ≠ ' ') (t : Chars) :
    ∀ k, k < pat.length → 0 < k → leadsWith pat (pat.take k ++ (' ' :: t)) = false := by
  intro k hklt hk0
  by_cases hl : leadsWith pat (pat.take k ++ ' ' :: t) = true
  · exfalso
    have hlen : (pat.take k).length < pat.length := by
      rw [List.length_take]
      omega
    have hp := leadsWith_append_long pat (pat.take k) (' ' :: t) hlen hl
    have hmem : ' ' ∈ pat := by
      rw [hp]
      apply List.mem_append_right
      have hpos : 0 < pat.length - (pat.take k).length := by
        rw [List.length_take]
        omega
      cases hn : pat.length - (pat.take k).length with
      | zero => omega
      | succ m => simp [List.take_succ_cons]
    exact hsp ' ' hmem rfl
  · exact Bool.eq_false_iff.mpr hl

theorem countOcc_eq_zero_of_not_contains (pat s : Chars)
    (h : containsSub pat s = false) : countOcc pat s = 0 := by
  induction s with
  | nil =>
    simp only [containsSub] at h
    simp [countOcc, h]
  | cons c cs ih =>
    simp only [containsSub, Bool.or_eq_false_iff] at h
    simp [countOcc, h.1, ih h.2]

theorem leadsWith_cons_false (a : Char) (p : Chars) (c : Char) (s : Chars)
    (hne : a ≠ c) : leadsWith (a :: p) (c :: s) = false := by
  simp only [leadsWith, List.length_cons, List.take_succ_cons]
  apply decide_eq_false
  intro h
  exact hne ((List.cons.inj h).1.symm)

theorem leadsWith_cons_iff (a : Char) (p : Chars) (c : Char) (s : Chars) :
    leadsWith (a :: p) (c :: s) = true ↔ c = a ∧ leadsWith p s = true := by
  simp only [leadsWith, List.length_cons, List.take_succ_cons, decide_eq_true_eq]
  constructor
  · intro h
    exact ⟨(List.cons.inj h).1, (List.cons.inj h).2⟩
  · rintro ⟨rfl, h⟩
    rw [h]

theorem leadsWith_of_append_pat (p q s : Chars) (h : leadsWith (p ++ q) s = true) :
    leadsWith p s = true := by
  simp only [leadsWith, decide_eq_true_eq] at h ⊢
  have : s.take p.length = (s.take (p ++ q).length).take p.length := by
    rw [List.take_take, min_eq_left]
    simp [List.length_append]
  rw [this, h, List.take_left]

theorem leadsWith_containsSub (pat s : Chars) (h : leadsWith pat s = true) :
    containsSub pat s = true := by
  cases s with
  | nil => simpa [containsSub] using h
  | cons c cs => simp [containsSub, h]

theorem render_decomp (instr resp : Chars) :
    mistral_prompt_template instr resp =
      ("<s>[INST]").data ++
        ' ' :: (instr ++
          ' ' :: ((("[/INST]").data) ++ ' ' :: (resp ++ ("</s>").data))) := by
  have hA : ("<s>[INST] ").data = ("<s>[INST]").data ++ [' '] := by decide
  have hB : (" [/INST] ").data = ' ' :: ((("[/INST]").data) ++ [' ']) := by decide
  unfold mistral_prompt_template
  rw [hA, hB]
  simp [List.append_assoc]

theorem countOcc_cons_nohead (pat : Chars) (c : Char) (s : Chars)
    (h : leadsWith pat (c :: s) = false) :
    countOcc pat (c :: s) = countOcc pat s := by
  simp [countOcc, h]

theorem countOcc_template (instr resp : Chars)
    (h1 : containsSub (("[/INST]").data) instr = false)
    (h2 : containsSub (("[/INST]").data) resp = false) :
    countOcc (("[/INST]").data) (mistral_prompt_template instr resp) = 1 := by
  have htag_ne : (("[/INST]").data) ≠ [] := by decide
  have htag_sp : ∀ c ∈ (("[/INST]").data), c ≠ ' ' := by decide
  have hhead : ∀ s : Chars, leadsWith (("[/INST]").data) (' ' :: s) = false := by
    intro s
    exact leadsWith_cons_false '[' _ ' ' s (by decide)
  rw [render_decomp]
  rw [countOcc_append _ htag_ne _ (space_free_hcross _ htag_sp _)]
  rw [show countOcc (("[/INST]").data) (("<s>[INST]").data) = 0 from by decide]
  rw [countOcc_cons_nohead _ _ _ (hhead _)]
  rw [countOcc_append _ htag_ne _ (space_free_hcross _ htag_sp _)]
  rw [countOcc_eq_zero_of_not_contains _ _ h1]
  rw [countOcc_cons_nohead _ _ _ (hhead _)]
  rw [countOcc_append _ htag_ne _ (space_free_hcross _ htag_sp _)]
  rw [show countOcc (("[/INST]").data) (("[/INST]").data) = 1 from by decide]
  rw [countOcc_cons_nohead _ _ _ (hhead _)]
  rw [countOcc_append _ htag_ne _ (by decide)]
  rw [countOcc_eq_zero_of_not_contains _ _ h2]
  rw [show countOcc (("[/INST]").data) (("</s>").data) = 0 from by decide]

theorem dropLead_append (tagL rest : Chars) : dropLead tagL (tagL ++ rest) = some rest := by
  simp [dropLead, leadsWith_self_append, List.drop_left]

theorem dropTrail_append (tagE X : Chars) : dropTrail tagE (X ++ tagE) = some X := by
  have hlen : (X ++ tagE).length - tagE.length = X.length := by
    simp [List.length_append]
  simp only [dropTrail, trailsWith, hlen, List.drop_left, List.take_left]
  rw [if_pos]
  simp [List.length_append]

theorem splitFirst_at_sep (instr resp : Chars)
    (h1 : containsSub (("[/INST]").data) instr = false) :
    splitFirst ((" [/INST] ").data) (instr ++ ((" [/INST] ").data ++ resp)) =
      some (instr, resp) := by
  induction instr with
  | nil =>
    rw [List.nil_append]
    rw [show ((" [/INST] ").data ++ resp) =
      ' ' :: (((("[/INST] ").data)) ++ resp) from rfl]
    simp only [splitFirst]
    rw [show (' ' :: (((("[/INST] ").data)) ++ resp)) =
      ((" [/INST] ").data) ++ resp from rfl]
    rw [leadsWith_self_append]
    simp [List.drop_left]
  | cons c instr' ih =>
    have hsub : containsSub (("[/INST]").data) instr' = false ∧
        leadsWith (("[/INST]").data) (c :: instr') = false := by
      simp only [containsSub, Bool.or_eq_false_iff] at h1
      exact ⟨h1.2, h1.1⟩
    have hlead : leadsWith ((" [/INST] ").data)
        (c :: (instr' ++ ((" [/INST] ").data ++ resp))) = false := by
      by_cases hc : c = ' '
      · subst hc
        by_cases hl : leadsWith ((" [/INST] ").data)
            (' ' :: (instr' ++ ((" [/INST] ").data ++ resp))) = true
        · exfalso
          have h2 := (leadsWith_cons_iff ' ' _ ' ' _).mp hl
          have h3 : leadsWith ((("[/INST]").data) ++ [' '])
              (instr' ++ ((" [/INST] ").data ++ resp)) = true := h2.2
          have h4 : leadsWith (("[/INST]").data)
              (instr' ++ ((" [/INST] ").data ++ resp)) = true :=
            leadsWith_of_append_pat _ [' '] _ h3
          by_cases hlen : (("[/INST]").data).length ≤ instr'.length
          · rw [leadsWith_append_of_le _ _ _ hlen] at h4
            have := leadsWith_containsSub _ _ h4
            rw [hsub.1] at this
            cases this
          · push_neg at hlen
            have h5 := leadsWith_append_long _ _ _ hlen h4
            have hmem : ' ' ∈ (("[/INST]").data) := by
              rw [h5]
              apply List.mem_append_right
              have hpos : 0 < (("[/INST]").data).length - instr'.length := by omega
              rw [show ((" [/INST] ").data ++ resp) =
                ' ' :: (((("[/INST] ").data)) ++ resp) from rfl]
              cases hn : (("[/INST]").data).length - instr'.length with
              | zero => omega
              | succ m => simp [List.take_succ_cons]
            have : ¬ (' ' ∈ (("[/INST]").data)) := by decide
            exact this hmem
        · exact Bool.eq_false_iff.mpr hl
      · exact leadsWith_cons_false ' ' _ c _ (fun he => hc he.symm)
    rw [List.cons_append]
    simp only [splitFirst, hlead, Bool.false_eq_true, if_false]
    rw [ih hsub.1]

/-- C6 counterexample: the claim quantifies over every instruction/response
pair, but when the instruction itself contains the instruction-close tag
the rendered text contains `[/INST]` twice, not exactly once. -/
theorem C6_counterexample_tag_in_instruction :
    countOcc (("[/INST]").data)
      (mistral_prompt_template (("[/INST]").data) (("y").data)) = 2 ∧
    ¬ countOcc (("[/INST]").data)
      (mistral_prompt_template (("[/INST]").data) (("y").data)) = 1 := by
  refine ⟨by decide, by decide⟩

/-- C6 (amended): for every instruction/response pair in which neither
side contains the substring `[/INST]`, the rendered sample contains the
instruction-close tag exactly once, and stripping the fixed opening tag
and terminator and splitting at the (unique) padded close tag recovers
the original instruction and response. -/
theorem C6_template_round_trip (instr resp : Chars)
    (h1 : containsSub (("[/INST]").data) instr = false)
    (h2 : containsSub (("[/INST]").data) resp = false) :
    countOcc (("[/INST]").data) (mistral_prompt_template instr resp) = 1 ∧
    parse_sample (mistral_prompt_template instr resp) = some (instr, resp) := by
  refine ⟨countOcc_template instr resp h1 h2, ?_⟩
  have hshape : mistral_prompt_template instr resp =
      ("<s>[INST] ").data ++
        ((instr ++ ((" [/INST] ").data ++ resp)) ++ ("</s>").data) := by
    unfold mistral_prompt_template
    simp [List.append_assoc]
  rw [hshape]
  unfold parse_sample
  rw [dropLead_append]
  dsimp only
  rw [dropTrail_append]
  dsimp only
  rw [splitFirst_at_sep instr resp h1]

/-- C6 witness: the round trip on a concrete tag-free pair. -/
theorem C6_template_round_trip_witness :
    countOcc (("[/INST]").data)
      (mistral_prompt_template (("parse this").data) (("ok").data)) = 1 ∧
    parse_sample (mistral_prompt_template (("parse this").data) (("ok").data)) =
      some ((("parse this").data), (("ok").data)) :=
  C6_template_round_trip (("parse this").data) (("ok").data) (by decide) (by decide)

/-- C8: validation passes exactly when the error list is empty — warnings
never affect the outcome — and the concrete single well-formed-sample
dataset passes while still drawing the fewer-than-1000-samples warning. -/
theorem C8_passed_iff_no_errors :
    (∀ data : List Item, (validate_dataset data).passed = true ↔
      (validate_dataset data).errors = []) ∧
    (validate_dataset [some (("<s>[INST] x [/INST] y</s>").data)]).passed = true ∧
    VMsg.datasetSmall 1 ∈
      (validate_dataset [some (("<s>[INST] x [/INST] y</s>").data)]).warnings ∧
    (validate_dataset [some (("<s>[INST] x [/INST] y</s>").data)]).errors = [] := by
  refine ⟨?_, by decide, by decide, by decide⟩
  intro data
  unfold validate_dataset
  by_cases hd : data.isEmpty
  · simp [hd]
  · simp [hd, List.isEmpty_iff]

/-! ## Task-balance warning characterization -/

theorem check_completeness_no_task (data : List Item) (i : Nat) (t : TaskKind)
    (c n : Nat) :
    VMsg.taskUnderrepresented t c n ∉ (check_completeness i data).2 := by
  induction data generalizing i with
  | nil => simp [check_completeness]
  | cons it rest ih =>
    intro hmem
    simp only [check_completeness, List.mem_append] at hmem
    rcases hmem with ((h | h) | h) | h
    · split at h
      · cases h
      · rcases List.mem_singleton.mp h with h
        cases h
    · split at h
      · cases h
      · rcases List.mem_singleton.mp h with h
        cases h
    · split at h
      · rcases List.mem_singleton.mp h with h
        cases h
      · split at h
        · rcases List.mem_singleton.mp h with h
          cases h
        · cases h
    · exact ih (i + 1) h

theorem dup_warnings_shape (data : List Item) (seen : List Chars) (i : Nat) (x : VMsg)
    (h : x ∈ (dup_warnings seen i data).1) : ∃ k, x = VMsg.duplicateText k := by
  induction data generalizing seen i with
  | nil => simp [dup_warnings] at h
  | cons it rest ih =>
    simp only [dup_warnings] at h
    split at h
    · rcases List.mem_cons.mp h with rfl | h
      · exact ⟨i, rfl⟩
      · exact ih _ _ h
    · exact ih _ _ h

theorem check_statistics_shape (data : List Item) (x : VMsg)
    (h : x ∈ check_statistics data) :
    (∃ k, x = VMsg.datasetSmall k) ∨ (∃ k, x = VMsg.samplesLong k) := by
  simp only [check_statistics, List.mem_append] at h
  rcases h with h | h
  · split at h
    · exact Or.inl ⟨data.length, List.mem_singleton.mp h⟩
    · cases h
  · split at h
    · exact Or.inr ⟨_, List.mem_singleton.mp h⟩
    · cases h

theorem mem_ratio_warnings (data : List Item) (t : TaskKind) :
    VMsg.taskUnderrepresented t (task_count t data) (task_total data) ∈
        ratio_warnings data ↔
      0 < task_total data ∧ 20 * task_count t data < 3 * task_total data := by
  unfold ratio_warnings
  by_cases h0 : 0 < task_total data
  · rw [if_pos h0]
    cases t <;>
      by_cases hA : 20 * task_count .user_input_parsing data < 3 * task_total data <;>
      by_cases hB : 20 * task_count .job_matching data < 3 * task_total data <;>
      by_cases hC : 20 * task_count .advice_generation data < 3 * task_total data <;>
      simp [task_order, hA, hB, hC, h0]
  · rw [if_neg h0]
    simp [h0]

/-- C9: a task-underrepresentation warning for task `t` (carrying `t`'s
keyword-match count and the summed total) is emitted exactly when the
total is positive and `t`'s share is below 15% (`count/total < 0.15`,
i.e. `20*count < 3*total` in exact arithmetic). -/
theorem C9_task_share_warning (data : List Item) (t : TaskKind) :
    VMsg.taskUnderrepresented t (task_count t data) (task_total data) ∈
        (validate_dataset data).warnings ↔
      0 < task_total data ∧ 20 * task_count t data < 3 * task_total data := by
  by_cases hd : data.isEmpty
  · have hnil : data = [] := by
      cases data
      · rfl
      · cases hd
    subst hnil
    simp [validate_dataset, task_total, task_count]
  · unfold validate_dataset
    rw [if_neg hd]
    simp only [List.mem_append]
    constructor
    · rintro ((h | h) | h)
      · exact absurd h (check_completeness_no_task data 0 t _ _)
      · simp only [check_content_quality, List.mem_append] at h
        rcases h with (h | h) | h
        · obtain ⟨k, hk⟩ := dup_warnings_shape data [] 0 _ h
          cases hk
        · split at h
          · rcases List.mem_singleton.mp h with h
            cases h
          · cases h
        · exact (mem_ratio_warnings data t).mp h
      · rcases check_statistics_shape data _ h with ⟨k, hk⟩ | ⟨k, hk⟩ <;> cases hk
    · intro hrhs
      exact Or.inl (Or.inr (by
        simp only [check_content_quality, List.mem_append]
        exact Or.inr ((mem_ratio_warnings data t).mpr hrhs)))
